import Mathlib

/-!
Shallow embedding of the real-time session logic of a live voice-tutoring
web application (`App.tsx` and `types.ts`).

The React component state and the long-lived mutable refs of `App` are
collected into one record, `AppState`; each event handler of the source is
translated as a pure state transformer.  Operations that may throw in the
source are modelled with `Except`; a `try/catch` in the source becomes a
`match` that discards the error.  JavaScript numbers used for audio timing
are modelled as rationals, and JavaScript strings as `String`/`List Char`.
-/

/-- Session status enum `SessionStatus` from `types.ts`. -/
inductive SessionStatus where
  | IDLE
  | CONNECTING
  | ACTIVE
  | ERROR
deriving DecidableEq, Repr

/-- The `role` field of a `Message` (`'user' | 'model'` in `types.ts`). -/
inductive Role where
  | user
  | model
deriving DecidableEq, Repr

/-- Chat message record `Message` from `types.ts`; `Date` timestamps are modelled as naturals
(milliseconds since the epoch, as produced by `Date.now()`). -/
structure Message where
  id : String
  role : Role
  text : String
  timestamp : Nat
deriving DecidableEq, Repr

/-- The `transcription` state of `App`: the published live display of the
current user/model accumulators. -/
structure Transcription where
  user : String
  model : String
deriving DecidableEq, Repr

/-- Category of a `CategorizedFeedback` item (`App.tsx` lines 8-11). -/
inductive Category where
  | Grammar
  | Pronunciation
  | NaturalPhrasing
  | General
deriving DecidableEq, Repr

/-- Feedback record `CategorizedFeedback` from `App.tsx`. -/
structure CategorizedFeedback where
  category : Category
  text : String
deriving DecidableEq, Repr

/-- A playback handle: one `AudioBufferSourceNode` tracked in `sourcesRef`.
`finished` models a node whose playback already ended (so that calling
`stop()` on it throws), `stopped` records that `stop()` took effect. -/
structure Handle where
  id : Nat
  finished : Bool
  stopped : Bool
deriving DecidableEq, Repr

/-- The component state and refs of `App` (`App.tsx` lines 36-52).
`inputCtx`, `outputCtx` and `scriptProcessor` record whether the
corresponding nullable ref currently holds a live resource;
`sessionPromise` records whether `sessionPromiseRef.current` is non-null. -/
structure AppState where
  status : SessionStatus
  isLanding : Bool
  messages : List Message
  transcription : Transcription
  latestFeedback : Option CategorizedFeedback
  currentUserText : String
  currentModelText : String
  inputCtx : Bool
  outputCtx : Bool
  scriptProcessor : Bool
  nextStart : ℚ
  sources : List Handle
  sessionPromise : Bool
deriving DecidableEq, Repr

/-- Model of `source.stop()` on a tracked node: throws `InvalidStateError` when the
node has already finished, otherwise marks it stopped. -/
def stopHandle (h : Handle) : Except String Handle :=
  if h.finished then Except.error "InvalidStateError"
  else Except.ok { h with stopped := true }

/-- The `sourcesRef.current.forEach(source => { try { source.stop() } catch(e) {} })`
loop: every stop error is caught and discarded, never propagated. -/
def stopLoop (hs : List Handle) : List Handle :=
  hs.map fun h =>
    match stopHandle h with
    | Except.ok h2 => h2
    | Except.error _ => h

/-- Model of `sourcesRef.current.clear()` applied after the stop loop. -/
def clearSet (_ : List Handle) : List Handle := []

/-- Teardown routine `cleanupAudio` (`App.tsx` lines 54-66): disconnect the processing node,
close both audio contexts (all three null-guarded in the source), stop every
tracked source with a per-source `try/catch`, clear the set, null the refs,
and reset the scheduling clock to zero. -/
def cleanupAudio (s : AppState) : AppState :=
  let afterStops := stopLoop s.sources
  { s with scriptProcessor := false
         , inputCtx := false
         , outputCtx := false
         , sources := clearSet afterStops
         , nextStart := 0 }

/-- Variant of `cleanupAudio` with its possible exceptions made explicit: the only
fallible calls inside it (`source.stop()`) are wrapped in `try/catch` by the
source, so the routine as a whole always returns normally. -/
def cleanupAudioE (s : AppState) : Except String AppState :=
  Except.ok (cleanupAudio s)

/-- The synchronous happy-path effects of `startSession` (`App.tsx` lines
118-129) up to and including the `ai.live.connect` assignment: leave the
landing page, set status to CONNECTING, allocate the input and output audio
contexts, store the session promise.  Note the source performs no check of
the current status before doing this. -/
def startSession (s : AppState) : AppState :=
  { s with isLanding := false
         , status := SessionStatus.CONNECTING
         , inputCtx := true
         , outputCtx := true
         , sessionPromise := true }

/-- Session stop `stopSession` (`App.tsx` lines 241-249) as a pure state transformer:
request `session.close()` and null the promise ref when present, run
`cleanupAudio`, set status IDLE and return to the landing page. -/
def stopSession (s : AppState) : AppState :=
  let s1 := { s with sessionPromise := false }
  let s2 := cleanupAudio s1
  { s2 with status := SessionStatus.IDLE, isLanding := true }

/-- Variant of `stopSession` with exceptions explicit, keeping the source's null guard
on `sessionPromiseRef.current`. -/
def stopSessionE (s : AppState) : Except String AppState :=
  let s1 := if s.sessionPromise then { s with sessionPromise := false } else s
  match cleanupAudioE s1 with
  | Except.ok s2 => Except.ok { s2 with status := SessionStatus.IDLE, isLanding := true }
  | Except.error e => Except.error e

/-- The `turnComplete` branch of `onmessage` (`App.tsx` lines 198-213).
`t` is the value of `Date.now()` at the moment the branch runs.  The source
guard `if (uText || mText)` is JavaScript truthiness: it holds exactly when
at least one accumulator is a non-empty string; `uText || "..."` substitutes
the placeholder for an empty accumulator. -/
def handleTurnComplete (s : AppState) (t : Nat) : AppState :=
  let uText := s.currentUserText
  let mText := s.currentModelText
  let newMessages :=
    if uText ≠ "" ∨ mText ≠ "" then
      s.messages ++
        [ { id := toString t ++ "-user", role := Role.user
          , text := if uText = "" then "..." else uText, timestamp := t }
        , { id := toString t ++ "-model", role := Role.model
          , text := if mText = "" then "..." else mText, timestamp := t } ]
    else s.messages
  { s with messages := newMessages
         , currentUserText := ""
         , currentModelText := ""
         , transcription := { user := "", model := "" } }

/-- The `interrupted` branch of `onmessage` (`App.tsx` lines 215-221): stop
every tracked source (errors caught per source), clear the tracked set, and
reset the scheduling clock.  The second component returns the handles as
they stand right after the stop loop, before the set is cleared, so that
theorems can speak about the stop effect on each of them. -/
def handleInterrupted (s : AppState) : AppState × List Handle :=
  let stopped := stopLoop s.sources
  ({ s with sources := clearSet stopped, nextStart := 0 }, stopped)

/-- A state in the middle of an active session, used as the concrete input
for counterexamples and witnesses. -/
def activeState : AppState :=
  { status := SessionStatus.ACTIVE
  , isLanding := false
  , messages := []
  , transcription := { user := "", model := "" }
  , latestFeedback := none
  , currentUserText := ""
  , currentModelText := ""
  , inputCtx := true
  , outputCtx := true
  , scriptProcessor := true
  , nextStart := 0
  , sources := []
  , sessionPromise := true }

/-- C2 counterexample: from the ACTIVE state, `startSession` is not
rejected — it re-enters CONNECTING, refuting the claim that a `start()`
call while the session is Active leaves the state unchanged. -/
theorem startSession_reenters_connecting_from_active :
    activeState.status = SessionStatus.ACTIVE ∧
    (startSession activeState).status = SessionStatus.CONNECTING :=
  ⟨rfl, rfl⟩

/-- C2 amended: `startSession` performs no guard on the current session
state.  Called from any state — Idle, Connecting, Active or Error — it
unconditionally leaves the landing page, transitions to CONNECTING, and
begins a fresh connection sequence (new audio contexts, new session
promise). -/
theorem startSession_unguarded (s : AppState) :
    (startSession s).status = SessionStatus.CONNECTING ∧
    (startSession s).isLanding = false ∧
    (startSession s).inputCtx = true ∧
    (startSession s).outputCtx = true ∧
    (startSession s).sessionPromise = true :=
  ⟨rfl, rfl, rfl, rfl, rfl⟩

/-- C3: on a turn-complete signal, if at least one accumulator is non-empty
exactly two messages are appended as a pair — user first (placeholder "..."
substituted for an empty accumulator), then model — and if both are empty
the log is unchanged; in every case both accumulators and the published
live transcription are empty afterwards. -/
theorem turnComplete_appends_pair (s : AppState) (t : Nat) :
    (handleTurnComplete s t).messages =
      (if s.currentUserText = "" ∧ s.currentModelText = "" then s.messages
       else s.messages ++
        [ { id := toString t ++ "-user", role := Role.user
          , text := if s.currentUserText = "" then "..." else s.currentUserText
          , timestamp := t }
        , { id := toString t ++ "-model", role := Role.model
          , text := if s.currentModelText = "" then "..." else s.currentModelText
          , timestamp := t } ]) ∧
    (handleTurnComplete s t).currentUserText = "" ∧
    (handleTurnComplete s t).currentModelText = "" ∧
    (handleTurnComplete s t).transcription = { user := "", model := "" } := by
  refine ⟨?_, rfl, rfl, rfl⟩
  unfold handleTurnComplete
  by_cases hu : s.currentUserText = "" <;> by_cases hm : s.currentModelText = "" <;>
    simp [hu, hm]

/-- C5: on an interruption signal every tracked playback handle receives a
`stop()` call whose error, if the handle already finished, is caught and
discarded; immediately afterwards the tracked set is empty and the
scheduling clock `nextStart` is 0. -/
theorem interruption_flushes (s : AppState) :
    (handleInterrupted s).1.sources = [] ∧
    (handleInterrupted s).1.nextStart = 0 ∧
    ∀ h ∈ (handleInterrupted s).2, h.stopped = true ∨ h.finished = true := by
  refine ⟨rfl, rfl, ?_⟩
  intro h hh
  simp only [handleInterrupted, stopLoop, List.mem_map] at hh
  obtain ⟨h0, _, rfl⟩ := hh
  unfold stopHandle
  by_cases hf : h0.finished = true
  · simp [hf]
  · simp [hf]

/-- A state with two tracked handles, one still playing and one already
finished, about to be interrupted. -/
def interruptedExampleState : AppState :=
  { activeState with
      nextStart := 3/2
    , sources := [ { id := 1, finished := false, stopped := false }
                 , { id := 2, finished := true, stopped := false } ] }

/-- Witness for C5 at a concrete state containing an already-finished
handle: the set is cleared, the clock is reset, and the finished handle's
failed stop was swallowed rather than propagated. -/
theorem interruption_flushes_witness :
    (handleInterrupted interruptedExampleState).1.sources = [] ∧
    (handleInterrupted interruptedExampleState).1.nextStart = 0 ∧
    (({ id := 2, finished := true, stopped := false } : Handle).stopped = true ∨
     ({ id := 2, finished := true, stopped := false } : Handle).finished = true) :=
  ⟨(interruption_flushes interruptedExampleState).1,
   (interruption_flushes interruptedExampleState).2.1,
   (interruption_flushes interruptedExampleState).2.2 _ (by decide)⟩

/-- Helper: the exception-explicit `stopSession` always returns normally,
with the pure `stopSession` as its value. -/
theorem stopSessionE_ok (s : AppState) : stopSessionE s = Except.ok (stopSession s) := by
  obtain ⟨st, la, ms, tr, fb, cu, cm, ic, oc, spr, ns, src, pr⟩ := s
  cases pr <;> rfl

/-- C6: teardown never throws regardless of the current resource state, and
calling `stopSession` twice in succession returns normally both times and
leaves the session state IDLE after each call. -/
theorem stop_twice_no_throw_idle (s : AppState) :
    (∃ t, cleanupAudioE s = Except.ok t) ∧
    ∃ s1 s2, stopSessionE s = Except.ok s1 ∧ stopSessionE s1 = Except.ok s2 ∧
      s1.status = SessionStatus.IDLE ∧ s2.status = SessionStatus.IDLE :=
  ⟨⟨cleanupAudio s, rfl⟩,
   stopSession s, stopSession (stopSession s),
   stopSessionE_ok s, stopSessionE_ok (stopSession s), rfl, rfl⟩

/-- C9: the interruption handler touches only the tracked-source set and
the scheduling clock; the session status, landing flag, conversation log,
published transcription, latest feedback item, both transcript
accumulators, the audio resources and the session promise are unchanged. -/
theorem interruption_frame (s : AppState) :
    (handleInterrupted s).1.status = s.status ∧
    (handleInterrupted s).1.isLanding = s.isLanding ∧
    (handleInterrupted s).1.messages = s.messages ∧
    (handleInterrupted s).1.transcription = s.transcription ∧
    (handleInterrupted s).1.latestFeedback = s.latestFeedback ∧
    (handleInterrupted s).1.currentUserText = s.currentUserText ∧
    (handleInterrupted s).1.currentModelText = s.currentModelText ∧
    (handleInterrupted s).1.inputCtx = s.inputCtx ∧
    (handleInterrupted s).1.outputCtx = s.outputCtx ∧
    (handleInterrupted s).1.scriptProcessor = s.scriptProcessor ∧
    (handleInterrupted s).1.sessionPromise = s.sessionPromise :=
  ⟨rfl, rfl, rfl, rfl, rfl, rfl, rfl, rfl, rfl, rfl, rfl⟩

/-- One audio-chunk scheduling step of the `onmessage` audio branch
(`App.tsx` lines 160-172): `nextStart := max nextStart deviceTime`, start
the buffer at `nextStart`, then `nextStart := nextStart + duration`.
The input list carries, per received chunk, the output device's
`currentTime` at the moment of scheduling and the decoded buffer's
duration; the output lists, per chunk, the start time assigned to it
together with its duration and the device time it was scheduled at. -/
def scheduleBuffers : ℚ → List (ℚ × ℚ) → List (ℚ × ℚ × ℚ)
  | _, [] => []
  | nextStart, (dev, dur) :: rest =>
    let start := max nextStart dev
    (start, dur, dev) :: scheduleBuffers (start + dur) rest

/-- Adjacent-pair chaining of a relation along a list. -/
def chained (R : α → α → Prop) : List α → Prop
  | [] => True
  | [_] => True
  | a :: b :: t => R a b ∧ chained R (b :: t)

instance chainedDecidable (R : α → α → Prop) [DecidableRel R] :
    (l : List α) → Decidable (chained R l)
  | [] => isTrue trivial
  | [_] => isTrue trivial
  | a :: b :: t =>
    have : Decidable (chained R (b :: t)) := chainedDecidable R (b :: t)
    inferInstanceAs (Decidable (R a b ∧ chained R (b :: t)))

theorem chained_of_head (R : α → α → Prop) (a : α) (l : List α)
    (hl : chained R l) (ha : ∀ b ∈ l, R a b) : chained R (a :: l) := by
  cases l with
  | nil => trivial
  | cons b t => exact ⟨ha b (List.mem_cons_self b t), hl⟩

/-- The scheduling relation of claim C4 between consecutive buffers: start
times do not decrease, and the later buffer starts no earlier than the
earlier buffer's start plus its duration. -/
def noOverlap (a b : ℚ × ℚ × ℚ) : Prop := a.1 ≤ b.1 ∧ a.1 + a.2.1 ≤ b.1

instance : DecidableRel noOverlap := fun a b =>
  inferInstanceAs (Decidable (a.1 ≤ b.1 ∧ a.1 + a.2.1 ≤ b.1))

theorem scheduleBuffers_inv (evs : List (ℚ × ℚ)) :
    ∀ init : ℚ, (∀ e ∈ evs, 0 ≤ e.2) →
      (∀ o ∈ scheduleBuffers init evs, o.2.2 ≤ o.1 ∧ init ≤ o.1) ∧
      chained noOverlap (scheduleBuffers init evs) := by
  induction evs with
  | nil => intro init _; exact ⟨fun o ho => absurd ho (List.not_mem_nil o), trivial⟩
  | cons e rest ih =>
    intro init hdur
    obtain ⟨dev, dur⟩ := e
    have hdur0 : (0 : ℚ) ≤ dur := hdur (dev, dur) (List.mem_cons_self _ _)
    have hrest : ∀ x ∈ rest, (0 : ℚ) ≤ x.2 := fun x hx => hdur x (List.mem_cons_of_mem _ hx)
    obtain ⟨ihMem, ihChain⟩ := ih (max init dev + dur) hrest
    simp only [scheduleBuffers]
    constructor
    · intro o ho
      rcases List.mem_cons.mp ho with h | h
      · subst h
        exact ⟨le_max_right _ _, le_max_left _ _⟩
      · obtain ⟨h1, h2⟩ := ihMem o h
        refine ⟨h1, ?_⟩
        calc init ≤ max init dev := le_max_left _ _
          _ ≤ max init dev + dur := le_add_of_nonneg_right hdur0
          _ ≤ o.1 := h2
    · refine chained_of_head _ _ _ ihChain ?_
      intro b hb
      obtain ⟨_, h2⟩ := ihMem b hb
      have hstep : max init dev + dur ≤ b.1 := h2
      exact ⟨le_trans (le_add_of_nonneg_right hdur0) hstep, hstep⟩

/-- C4: within one uninterrupted turn (one run of `scheduleBuffers` with no
interruption resetting the clock), assuming every decoded buffer has
non-negative duration, consecutive start times are non-decreasing, buffer
N+1 starts no earlier than buffer N's start plus buffer N's duration, and
every buffer's start time is at least the device clock's current time at
the moment it was scheduled. -/
theorem playback_schedule_sound (init : ℚ) (evs : List (ℚ × ℚ))
    (hdur : ∀ e ∈ evs, 0 ≤ e.2) :
    chained noOverlap (scheduleBuffers init evs) ∧
    ∀ o ∈ scheduleBuffers init evs, o.2.2 ≤ o.1 := by
  obtain ⟨hmem, hchain⟩ := scheduleBuffers_inv evs init hdur
  exact ⟨hchain, fun o ho => (hmem o ho).1⟩

/-- Witness for C4 at a concrete event list: a device that idled past the
clock (second event) and one that kept up (third event). -/
theorem playback_schedule_sound_witness :
    (∀ e ∈ [((0 : ℚ), (1 : ℚ)), (5, 2), (6, 1)], (0 : ℚ) ≤ e.2) ∧
    (chained noOverlap (scheduleBuffers 0 [((0 : ℚ), (1 : ℚ)), (5, 2), (6, 1)]) ∧
     ∀ o ∈ scheduleBuffers 0 [((0 : ℚ), (1 : ℚ)), (5, 2), (6, 1)], o.2.2 ≤ o.1) :=
  ⟨by decide, playback_schedule_sound 0 _ (by decide)⟩

/-- Rounding to the nearest integer, halves rounding up, as JavaScript's
`Math.round` does. -/
def roundHalfUp (q : ℚ) : ℤ := ⌊q + 1/2⌋

/-- Modelled from the spec: the per-sample conversion inside
`createPcmBlob`, whose implementation lives in `services/audioUtils` and is
not among the sources here.  Per the capture-encode description: multiply
the floating-point sample by `0x7FFF`, clamp the product to the range the
`0x7FFF` scale can represent — saturating at `±0x7FFF`, the images of the
nominal full-scale samples `±1.0`, which is what avoids wraparound for
samples at or beyond `±1.0` — and round to nearest. -/
def pcm16OfSample (x : ℚ) : ℤ :=
  roundHalfUp (max (-32767) (min 32767 (x * 32767)))

theorem floor_add_half_int (n : ℤ) : roundHalfUp ((n : ℚ)) = n := by
  unfold roundHalfUp
  rw [Int.floor_int_add]
  norm_num

/-- C7: PCM encoding multiplies by 0x7FFF, clamps, and rounds to nearest;
every sample strictly above 1.0 encodes to the positive clamped extreme
32767, every sample strictly below -1.0 encodes to the negative clamped
extreme -32767, and every encoded value lies inside the representable
16-bit signed range — no input can wrap around. -/
theorem pcm_encode_clamps (x : ℚ) :
    (1 < x → pcm16OfSample x = 32767) ∧
    (x < -1 → pcm16OfSample x = -32767) ∧
    -32768 ≤ pcm16OfSample x ∧ pcm16OfSample x ≤ 32767 := by
  refine ⟨?_, ?_, ?_, ?_⟩
  · intro h
    have h1 : (32767 : ℚ) ≤ x * 32767 := by nlinarith
    unfold pcm16OfSample
    rw [min_eq_left h1, max_eq_right (by norm_num : (-32767 : ℚ) ≤ 32767)]
    exact_mod_cast floor_add_half_int 32767
  · intro h
    have h1 : x * 32767 ≤ (-32767 : ℚ) := by nlinarith
    have h2 : x * 32767 ≤ (32767 : ℚ) := by linarith
    unfold pcm16OfSample
    rw [min_eq_right h2, max_eq_left h1]
    have := floor_add_half_int (-32767)
    rw [show (((-32767 : ℤ) : ℚ)) = (-32767 : ℚ) by norm_num] at this
    exact this
  · have hlo : (-32767 : ℚ) ≤ max (-32767) (min 32767 (x * 32767)) := le_max_left _ _
    have h1 : (-32767 : ℤ) ≤ pcm16OfSample x := by
      unfold pcm16OfSample roundHalfUp
      calc (-32767 : ℤ) = ⌊((-32767 : ℚ)) + 1/2⌋ := by
            have := floor_add_half_int (-32767)
            unfold roundHalfUp at this
            rw [show (((-32767 : ℤ) : ℚ)) = (-32767 : ℚ) by norm_num] at this
            omega
        _ ≤ ⌊max (-32767) (min 32767 (x * 32767)) + 1/2⌋ :=
            Int.floor_le_floor (by linarith)
    omega
  · have hhi : max (-32767) (min 32767 (x * 32767)) ≤ (32767 : ℚ) :=
      max_le (by norm_num) (min_le_left _ _)
    unfold pcm16OfSample roundHalfUp
    calc ⌊max (-32767) (min 32767 (x * 32767)) + 1/2⌋
        ≤ ⌊(32767 : ℚ) + 1/2⌋ := Int.floor_le_floor (by linarith)
      _ = 32767 := by
          have := floor_add_half_int 32767
          unfold roundHalfUp at this
          exact_mod_cast this

/-- Witness for C7 at concrete out-of-range samples `2.0` and `-2.0`. -/
theorem pcm_encode_clamps_witness :
    pcm16OfSample 2 = 32767 ∧ pcm16OfSample (-2) = -32767 :=
  ⟨(pcm_encode_clamps 2).1 (by norm_num),
   (pcm_encode_clamps (-2)).2.1 (by norm_num)⟩

/-- ASCII lowercasing of one character: the fragment of JavaScript
case-insensitive (`/i`) matching exercised by the three ASCII tag markers
of the feedback regexes. -/
def lowerChar (c : Char) : Char :=
  if 65 ≤ c.toNat ∧ c.toNat ≤ 90 then Char.ofNat (c.toNat + 32) else c

/-- Lowercase an entire character list. -/
def lowerL (s : List Char) : List Char := s.map lowerChar

/-- JavaScript line terminators: the characters `.` does not match in a
non-dotAll regex. -/
def isLineTerm (c : Char) : Bool :=
  c == '\n' || c == '\r' || c == '\u2028' || c == '\u2029'

/-- The lazy capture `(.*?)(?=\x5b|$)` of the feedback regexes, started
right after a matched tag literal: consume characters up to (excluding) the
first `'['` or the end of input; a line terminator on the way makes the
whole match attempt at this start position fail (`.` does not cross it and
the required lookahead can then never be met). -/
def captureAfter : List Char → Option (List Char)
  | [] => some []
  | c :: rest =>
    if c == '[' then some []
    else if isLineTerm c then none
    else (captureAfter rest).map (fun l => c :: l)

/-- Predicate `leadsWith p s`: `p` is an initial segment of `s`. -/
def leadsWith : List Char → List Char → Bool
  | [], _ => true
  | _ :: _, [] => false
  | a :: as, b :: bs => a == b && leadsWith as bs

/-- Model of `text.match(/\x5btag\x5d(.*?)(?=\x5b|$)/i)`, returning the first
capture group: try every start position from the left; where the lowercased
text begins with the (lowercase) tag literal, attempt the lazy capture, and
on its failure resume the scan at the next position, exactly as the
JavaScript regex engine does. -/
def matchTag (pat : List Char) : List Char → Option (List Char)
  | [] => none
  | c :: rest =>
    if leadsWith pat (lowerL (c :: rest)) then
      match captureAfter (List.drop pat.length (c :: rest)) with
      | some cap => some cap
      | none => matchTag pat rest
    else matchTag pat rest

/-- Model of `String.prototype.trim` on the whitespace that can actually occur in a
capture (ASCII space and tab; captures cannot contain line terminators). -/
def trimL (s : List Char) : List Char :=
  ((s.dropWhile Char.isWhitespace).reverse.dropWhile Char.isWhitespace).reverse

/-- Lowercased literal of the `/\x5bGrammar\x5d/i` tag. -/
def grammarTag : List Char := "[grammar]".toList

/-- Lowercased literal of the `/\x5bPronunciation\x5d/i` tag. -/
def pronunciationTag : List Char := "[pronunciation]".toList

/-- Lowercased literal of the `/\x5bNatural Phrasing\x5d/i` tag. -/
def naturalTag : List Char := "[natural phrasing]".toList

/-- The feedback classification of `onmessage` (`App.tsx` lines 184-195):
match the three tag regexes against the full accumulated model text and
pick the first match in the strict `if / else if` priority order
Grammar, then Pronunciation, then Natural Phrasing, trimming the captured
text. -/
def classifyFeedback (s : List Char) : Option CategorizedFeedback :=
  match matchTag grammarTag s with
  | some cap => some { category := Category.Grammar, text := (trimL cap).asString }
  | none =>
    match matchTag pronunciationTag s with
    | some cap => some { category := Category.Pronunciation, text := (trimL cap).asString }
    | none =>
      match matchTag naturalTag s with
      | some cap => some { category := Category.NaturalPhrasing, text := (trimL cap).asString }
      | none => none

/-- String-level wrapper of `classifyFeedback`. -/
def classifyStr (s : String) : Option CategorizedFeedback := classifyFeedback s.toList

/-- The `outputTranscription` branch of `onmessage` (`App.tsx` lines
179-196): append the delta to the model accumulator, publish it, re-run the
classifier on the full accumulated text, and overwrite the latest feedback
only when some tag matched. -/
def handleModelDelta (s : AppState) (delta : String) : AppState :=
  let m := s.currentModelText ++ delta
  { s with currentModelText := m
         , transcription := { s.transcription with model := m }
         , latestFeedback :=
             match classifyStr m with
             | some fb => some fb
             | none => s.latestFeedback }

theorem toNat_ofNat_valid {n : Nat} (h : n < 0xd800) : (Char.ofNat n).toNat = n := by
  rw [Char.ofNat, dif_pos (Or.inl h)]
  simp [Char.ofNatAux, Char.toNat, UInt32.ofNat', UInt32.toNat]

theorem lowerChar_lbrack {c : Char} (h : lowerChar c = '[') : c = '[' := by
  unfold lowerChar at h
  split_ifs at h with hc
  · have h2 := congrArg Char.toNat h
    rw [toNat_ofNat_valid (by omega)] at h2
    have hval : ('[' : Char).toNat = 91 := by decide
    omega
  · exact h

theorem lowerChar_lbrack_val : lowerChar '[' = '[' := by decide

theorem lowerL_append (a b : List Char) : lowerL (a ++ b) = lowerL a ++ lowerL b :=
  List.map_append lowerChar a b

theorem lowerL_cons (c : Char) (t : List Char) :
    lowerL (c :: t) = lowerChar c :: lowerL t := rfl

theorem lowerL_length (a : List Char) : (lowerL a).length = a.length :=
  List.length_map a lowerChar

theorem lowerL_bracketFree {a b : List Char} (h : lowerL a = lowerL b)
    (hb : ∀ c ∈ b, c ≠ '[') : ∀ c ∈ a, c ≠ '[' := by
  intro c hc hceq
  subst hceq
  have hmem : lowerChar '[' ∈ lowerL b := by
    rw [← h]
    exact List.mem_map_of_mem lowerChar hc
  obtain ⟨c2, hc2, hc2eq⟩ := List.mem_map.mp hmem
  rw [lowerChar_lbrack_val] at hc2eq
  exact hb c2 hc2 (lowerChar_lbrack hc2eq)

theorem lowerL_cons_split {g w : List Char} (h : lowerL g = '[' :: w) :
    ∃ gt, g = '[' :: gt ∧ lowerL gt = w := by
  cases g with
  | nil => exact absurd h (by simp [lowerL])
  | cons c t =>
    rw [lowerL_cons] at h
    injection h with h1 h2
    exact ⟨t, by rw [lowerChar_lbrack h1], h2⟩

theorem leadsWith_append_left {p a b : List Char} (h : leadsWith p (a ++ b) = true)
    (hlen : p.length ≤ a.length) : leadsWith p a = true := by
  induction p generalizing a with
  | nil => rfl
  | cons x p2 ih =>
    cases a with
    | nil => simp at hlen
    | cons y a2 =>
      simp only [List.cons_append, leadsWith, Bool.and_eq_true] at h ⊢
      exact ⟨h.1, ih h.2 (Nat.le_of_succ_le_succ hlen)⟩

theorem leadsWith_swap {a p b : List Char} (h : leadsWith p (a ++ b) = true)
    (hlen : a.length ≤ p.length) : leadsWith a p = true := by
  induction a generalizing p with
  | nil => rfl
  | cons x a2 ih =>
    cases p with
    | nil => simp at hlen
    | cons y p2 =>
      simp only [List.cons_append, leadsWith, Bool.and_eq_true, beq_iff_eq] at h ⊢
      exact ⟨h.1.symm, ih h.2 (Nat.le_of_succ_le_succ hlen)⟩

theorem leadsWith_lbrack_bound {pt : List Char} (hpt : ∀ c ∈ pt, c ≠ '[') :
    ∀ (u y : List Char), leadsWith pt (lowerL u ++ '[' :: y) = true →
      pt.length ≤ u.length := by
  induction pt with
  | nil => intro u y _; exact Nat.zero_le _
  | cons a pt2 ih =>
    intro u y h
    cases u with
    | nil =>
      simp only [lowerL, List.map_nil, List.nil_append, leadsWith,
        Bool.and_eq_true, beq_iff_eq] at h
      exact absurd h.1 (hpt a (List.mem_cons_self ..))
    | cons b u2 =>
      simp only [lowerL_cons, List.cons_append, leadsWith, Bool.and_eq_true] at h
      have := ih (fun c hc => hpt c (List.mem_cons_of_mem _ hc)) u2 y h.2
      simpa using Nat.succ_le_succ this

theorem matchTag_cons (pat : List Char) (c : Char) (rest : List Char) :
    matchTag pat (c :: rest) =
      if leadsWith pat (lowerL (c :: rest)) then
        match captureAfter (List.drop pat.length (c :: rest)) with
        | some cap => some cap
        | none => matchTag pat rest
      else matchTag pat rest := rfl

theorem matchTag_bracketFree (pt v : List Char) :
    ∀ l : List Char, (∀ c ∈ l, c ≠ '[') →
      matchTag ('[' :: pt) (l ++ v) = matchTag ('[' :: pt) v := by
  intro l
  induction l with
  | nil => intro _; rfl
  | cons c l2 ih =>
    intro hl
    have hc : lowerChar c ≠ '[' := fun h => hl c (List.mem_cons_self ..) (lowerChar_lbrack h)
    have hcond : leadsWith ('[' :: pt) (lowerL (c :: (l2 ++ v))) = false := by
      rw [lowerL_cons]
      simp only [leadsWith, Bool.and_eq_false_iff]
      left
      simp only [beq_eq_false_iff_ne, ne_eq]
      exact fun h => hc h.symm
    rw [List.cons_append, matchTag_cons, hcond]
    simp only [Bool.false_eq_true, if_false]
    exact ih fun c2 hc2 => hl c2 (List.mem_cons_of_mem _ hc2)

theorem captureAfter_bracket (y z : List Char) :
    ∀ x : List Char, captureAfter (x ++ '[' :: y) = captureAfter (x ++ '[' :: z) := by
  intro x
  induction x with
  | nil => rfl
  | cons c x2 ih =>
    simp only [List.cons_append, captureAfter, List.append_eq, ih]


theorem matchTag_congr (pt gt mt : List Char)
    (hpt : ∀ c ∈ pt, c ≠ '[')
    (hg : lowerL gt = lowerL mt)
    (hgB : ∀ c ∈ gt, c ≠ '[')
    (hmB : ∀ c ∈ mt, c ≠ '[')
    (h3 : leadsWith pt (lowerL mt) = true → pt = lowerL mt)
    (h4 : leadsWith (lowerL mt) pt = true → pt = lowerL mt)
    (v : List Char) :
    ∀ u : List Char,
      matchTag ('[' :: pt) (u ++ '[' :: (gt ++ v)) =
        matchTag ('[' :: pt) (u ++ '[' :: (mt ++ v)) := by
  have hgm : gt.length = mt.length := by
    have h := congrArg List.length hg
    rwa [lowerL_length, lowerL_length] at h
  intro u
  induction u with
  | nil =>
    rw [List.nil_append, List.nil_append]
    have hcondeq : leadsWith ('[' :: pt) (lowerL ('[' :: (gt ++ v))) =
        leadsWith ('[' :: pt) (lowerL ('[' :: (mt ++ v))) := by
      rw [lowerL_cons, lowerL_cons, lowerL_append, lowerL_append, hg]
    cases hcond : leadsWith ('[' :: pt) (lowerL ('[' :: (mt ++ v))) with
    | false =>
      rw [matchTag_cons, matchTag_cons, hcondeq, hcond]
      simp only [Bool.false_eq_true, if_false]
      have e1 : matchTag ('[' :: pt) (gt ++ v) = matchTag ('[' :: pt) v :=
        matchTag_bracketFree pt v gt hgB
      have e2 : matchTag ('[' :: pt) (mt ++ v) = matchTag ('[' :: pt) v :=
        matchTag_bracketFree pt v mt hmB
      rw [e1, e2]
    | true =>
      have hlw : leadsWith pt (lowerL mt ++ lowerL v) = true := by
        rw [lowerL_cons] at hcond
        simp only [leadsWith, Bool.and_eq_true] at hcond
        have h2 := hcond.2
        rwa [lowerL_append] at h2
      have hpe : pt = lowerL mt := by
        rcases Nat.le_total pt.length (lowerL mt).length with hle | hle
        · exact h3 (leadsWith_append_left hlw hle)
        · exact h4 (leadsWith_swap hlw hle)
      have hptm : pt.length = mt.length := by rw [hpe, lowerL_length]
      have hdg : List.drop ('[' :: pt).length ('[' :: (gt ++ v)) = v := by
        rw [show ('[' : Char) :: (gt ++ v) = ('[' :: gt) ++ v from rfl]
        rw [show ('[' :: pt).length = ('[' :: gt).length by
          simp [List.length_cons, hptm, hgm]]
        exact List.drop_left _ _
      have hdm : List.drop ('[' :: pt).length ('[' :: (mt ++ v)) = v := by
        rw [show ('[' : Char) :: (mt ++ v) = ('[' :: mt) ++ v from rfl]
        rw [show ('[' :: pt).length = ('[' :: mt).length by
          simp [List.length_cons, hptm]]
        exact List.drop_left _ _
      rw [matchTag_cons, matchTag_cons, hcondeq, hcond]
      simp only [if_true]
      rw [hdg, hdm]
      cases hcap : captureAfter v with
      | some cap => rfl
      | none =>
        have e1 : matchTag ('[' :: pt) (gt ++ v) = matchTag ('[' :: pt) v :=
          matchTag_bracketFree pt v gt hgB
        have e2 : matchTag ('[' :: pt) (mt ++ v) = matchTag ('[' :: pt) v :=
          matchTag_bracketFree pt v mt hmB
        simp only [e1, e2]
  | cons c u2 ih =>
    rw [List.cons_append, List.cons_append]
    have hlowEq : lowerL (u2 ++ '[' :: (gt ++ v)) = lowerL (u2 ++ '[' :: (mt ++ v)) := by
      rw [lowerL_append, lowerL_append, lowerL_cons, lowerL_cons,
          lowerL_append, lowerL_append, hg]
    have hcondeq : leadsWith ('[' :: pt) (lowerL (c :: (u2 ++ '[' :: (gt ++ v)))) =
        leadsWith ('[' :: pt) (lowerL (c :: (u2 ++ '[' :: (mt ++ v)))) := by
      rw [lowerL_cons, lowerL_cons, hlowEq]
    cases hcond : leadsWith ('[' :: pt) (lowerL (c :: (u2 ++ '[' :: (mt ++ v)))) with
    | false =>
      rw [matchTag_cons, matchTag_cons, hcondeq, hcond]
      simp only [Bool.false_eq_true, if_false]
      exact ih
    | true =>
      have hb : ('[' :: pt).length ≤ (c :: u2).length := by
        rw [lowerL_cons] at hcond
        simp only [leadsWith, Bool.and_eq_true] at hcond
        have h2 := hcond.2
        rw [lowerL_append, lowerL_cons, lowerChar_lbrack_val] at h2
        have := leadsWith_lbrack_bound hpt u2 (lowerL (mt ++ v)) h2
        simp only [List.length_cons]
        omega
      have hdg : List.drop ('[' :: pt).length (c :: (u2 ++ '[' :: (gt ++ v))) =
          List.drop ('[' :: pt).length (c :: u2) ++ '[' :: (gt ++ v) := by
        rw [show c :: (u2 ++ '[' :: (gt ++ v)) = (c :: u2) ++ '[' :: (gt ++ v) from rfl]
        exact List.drop_append_of_le_length hb
      have hdm : List.drop ('[' :: pt).length (c :: (u2 ++ '[' :: (mt ++ v))) =
          List.drop ('[' :: pt).length (c :: u2) ++ '[' :: (mt ++ v) := by
        rw [show c :: (u2 ++ '[' :: (mt ++ v)) = (c :: u2) ++ '[' :: (mt ++ v) from rfl]
        exact List.drop_append_of_le_length hb
      rw [matchTag_cons, matchTag_cons, hcondeq, hcond]
      simp only [if_true]
      rw [hdg, hdm,
          captureAfter_bracket (gt ++ v) (mt ++ v) (List.drop ('[' :: pt).length (c :: u2))]
      cases hcap : captureAfter (List.drop ('[' :: pt).length (c :: u2) ++ '[' :: (mt ++ v)) with
      | some cap => rfl
      | none => exact ih

/-- The three recognized feedback tags. -/
inductive FeedbackTag where
  | Grammar
  | Pronunciation
  | NaturalPhrasing
deriving DecidableEq, Repr

/-- The canonical spelling of each tag, as the system instruction tells the
model to produce it. -/
def tagCanonical : FeedbackTag → List Char
  | FeedbackTag.Grammar => "[Grammar]".toList
  | FeedbackTag.Pronunciation => "[Pronunciation]".toList
  | FeedbackTag.NaturalPhrasing => "[Natural Phrasing]".toList

/-- C10: feedback tag markers are matched case-insensitively.  Replacing,
anywhere in the accumulated model text, an arbitrarily-cased spelling `g`
of a tag marker (any `g` whose lowercasing equals the marker's lowercasing,
for example "[grammar]" or "[GRAMMAR]") by the canonical spelling leaves
the classifier's output — category and captured text alike — unchanged. -/
theorem classify_tag_case_insensitive (tg : FeedbackTag) (g u v : List Char)
    (hg : lowerL g = lowerL (tagCanonical tg)) :
    classifyFeedback (u ++ g ++ v) = classifyFeedback (u ++ tagCanonical tg ++ v) := by
  cases tg
  case Grammar =>
    have hcan : lowerL (tagCanonical FeedbackTag.Grammar) = '[' :: "grammar]".toList := by
      decide
    rw [hcan] at hg
    obtain ⟨gt2, hgeq, hglow⟩ := lowerL_cons_split hg
    subst hgeq
    have hgmt : lowerL gt2 = lowerL "Grammar]".toList := by rw [hglow]; decide
    have hgB : ∀ c ∈ gt2, c ≠ '[' := lowerL_bracketFree hgmt (by decide)
    have e1 := matchTag_congr "grammar]".toList gt2 "Grammar]".toList (by decide) hgmt hgB
      (by decide) (by decide) (by decide) v u
    have e2 := matchTag_congr "pronunciation]".toList gt2 "Grammar]".toList (by decide) hgmt hgB
      (by decide) (by decide) (by decide) v u
    have e3 := matchTag_congr "natural phrasing]".toList gt2 "Grammar]".toList (by decide) hgmt hgB
      (by decide) (by decide) (by decide) v u
    rw [show tagCanonical FeedbackTag.Grammar = '[' :: "Grammar]".toList from rfl]
    rw [List.append_assoc, List.cons_append, List.append_assoc, List.cons_append]
    unfold classifyFeedback
    rw [show grammarTag = '[' :: "grammar]".toList from rfl,
        show pronunciationTag = '[' :: "pronunciation]".toList from rfl,
        show naturalTag = '[' :: "natural phrasing]".toList from rfl]
    rw [e1, e2, e3]
  case Pronunciation =>
    have hcan : lowerL (tagCanonical FeedbackTag.Pronunciation) =
        '[' :: "pronunciation]".toList := by decide
    rw [hcan] at hg
    obtain ⟨gt2, hgeq, hglow⟩ := lowerL_cons_split hg
    subst hgeq
    have hgmt : lowerL gt2 = lowerL "Pronunciation]".toList := by rw [hglow]; decide
    have hgB : ∀ c ∈ gt2, c ≠ '[' := lowerL_bracketFree hgmt (by decide)
    have e1 := matchTag_congr "grammar]".toList gt2 "Pronunciation]".toList (by decide) hgmt hgB
      (by decide) (by decide) (by decide) v u
    have e2 := matchTag_congr "pronunciation]".toList gt2 "Pronunciation]".toList
      (by decide) hgmt hgB (by decide) (by decide) (by decide) v u
    have e3 := matchTag_congr "natural phrasing]".toList gt2 "Pronunciation]".toList
      (by decide) hgmt hgB (by decide) (by decide) (by decide) v u
    rw [show tagCanonical FeedbackTag.Pronunciation = '[' :: "Pronunciation]".toList from rfl]
    rw [List.append_assoc, List.cons_append, List.append_assoc, List.cons_append]
    unfold classifyFeedback
    rw [show grammarTag = '[' :: "grammar]".toList from rfl,
        show pronunciationTag = '[' :: "pronunciation]".toList from rfl,
        show naturalTag = '[' :: "natural phrasing]".toList from rfl]
    rw [e1, e2, e3]
  case NaturalPhrasing =>
    have hcan : lowerL (tagCanonical FeedbackTag.NaturalPhrasing) =
        '[' :: "natural phrasing]".toList := by decide
    rw [hcan] at hg
    obtain ⟨gt2, hgeq, hglow⟩ := lowerL_cons_split hg
    subst hgeq
    have hgmt : lowerL gt2 = lowerL "Natural Phrasing]".toList := by rw [hglow]; decide
    have hgB : ∀ c ∈ gt2, c ≠ '[' := lowerL_bracketFree hgmt (by decide)
    have e1 := matchTag_congr "grammar]".toList gt2 "Natural Phrasing]".toList
      (by decide) hgmt hgB (by decide) (by decide) (by decide) v u
    have e2 := matchTag_congr "pronunciation]".toList gt2 "Natural Phrasing]".toList
      (by decide) hgmt hgB (by decide) (by decide) (by decide) v u
    have e3 := matchTag_congr "natural phrasing]".toList gt2 "Natural Phrasing]".toList
      (by decide) hgmt hgB (by decide) (by decide) (by decide) v u
    rw [show tagCanonical FeedbackTag.NaturalPhrasing = '[' :: "Natural Phrasing]".toList
      from rfl]
    rw [List.append_assoc, List.cons_append, List.append_assoc, List.cons_append]
    unfold classifyFeedback
    rw [show grammarTag = '[' :: "grammar]".toList from rfl,
        show pronunciationTag = '[' :: "pronunciation]".toList from rfl,
        show naturalTag = '[' :: "natural phrasing]".toList from rfl]
    rw [e1, e2, e3]

/-- Witness for C10: the fully-uppercased marker "[GRAMMAR]" inside running
text classifies exactly as the canonical "[Grammar]" does. -/
theorem classify_tag_case_insensitive_witness :
    lowerL "[GRAMMAR]".toList = lowerL (tagCanonical FeedbackTag.Grammar) ∧
    classifyFeedback ("Well done! ".toList ++ "[GRAMMAR]".toList ++ " Use the past tense.".toList) =
      classifyFeedback ("Well done! ".toList ++ tagCanonical FeedbackTag.Grammar ++
        " Use the past tense.".toList) :=
  ⟨by decide,
   classify_tag_case_insensitive FeedbackTag.Grammar "[GRAMMAR]".toList
     "Well done! ".toList " Use the past tense.".toList (by decide)⟩

/-- Case-insensitive occurrence of a (lowercase) literal anywhere in a
character list. -/
def occursIn (pat : List Char) : List Char → Bool
  | [] => leadsWith pat []
  | c :: rest => leadsWith pat (lowerL (c :: rest)) || occursIn pat rest

theorem matchTag_none_of_not_occurs (pat : List Char) :
    ∀ s : List Char, occursIn pat s = false → matchTag pat s = none := by
  intro s
  induction s with
  | nil => intro _; rfl
  | cons c rest ih =>
    intro h
    simp only [occursIn, Bool.or_eq_false_iff] at h
    rw [matchTag_cons, h.1]
    simp only [Bool.false_eq_true, if_false]
    exact ih h.2

/-- C8: when the accumulated model text after an output-transcription delta
contains none of the three recognized tag markers (in any letter case), the
classifier emits nothing: the handler returns normally and the previously
retained latest feedback item is unchanged. -/
theorem no_marker_keeps_feedback (s : AppState) (delta : String)
    (h1 : occursIn grammarTag (s.currentModelText ++ delta).toList = false)
    (h2 : occursIn pronunciationTag (s.currentModelText ++ delta).toList = false)
    (h3 : occursIn naturalTag (s.currentModelText ++ delta).toList = false) :
    (handleModelDelta s delta).latestFeedback = s.latestFeedback := by
  have hc : classifyStr (s.currentModelText ++ delta) = none := by
    unfold classifyStr classifyFeedback
    rw [matchTag_none_of_not_occurs grammarTag _ h1,
        matchTag_none_of_not_occurs pronunciationTag _ h2,
        matchTag_none_of_not_occurs naturalTag _ h3]
  simp only [handleModelDelta, hc]

/-- A state whose model accumulator holds marker-free text. -/
def plainTextState : AppState := { activeState with currentModelText := "Great job" }

/-- Witness for C8 at a concrete marker-free accumulated text. -/
theorem no_marker_keeps_feedback_witness :
    occursIn grammarTag (plainTextState.currentModelText ++ " today").toList = false ∧
    occursIn pronunciationTag (plainTextState.currentModelText ++ " today").toList = false ∧
    occursIn naturalTag (plainTextState.currentModelText ++ " today").toList = false ∧
    (handleModelDelta plainTextState " today").latestFeedback = plainTextState.latestFeedback :=
  ⟨by decide, by decide, by decide,
   no_marker_keeps_feedback plainTextState " today" (by decide) (by decide) (by decide)⟩

/-- C1 counterexample: in the transcript "[Grammar] use [a] word." the
bracketed "[a]" is not a recognized marker, so the claim's reading — the
captured text runs to the next recognized marker or the end of string —
would give "use [a] word."; the code stops the capture at the next
occurrence of the character bracket and yields "use". -/
theorem classify_stops_at_bracket_counterexample :
    classifyStr "[Grammar] use [a] word." =
      some { category := Category.Grammar, text := "use" } ∧
    classifyStr "[Grammar] use [a] word." ≠
      some { category := Category.Grammar, text := "use [a] word." } :=
  ⟨by decide, by decide⟩

/-- Spec-side description of where a tag match starts: the suffix of the
text at the first position where the lowercased text begins with the
(lowercase) tag literal, with the literal itself dropped. -/
def findTagSuffix (pat : List Char) : List Char → Option (List Char)
  | [] => none
  | c :: rest =>
    if leadsWith pat (lowerL (c :: rest)) then some (List.drop pat.length (c :: rest))
    else findTagSuffix pat rest

/-- Spec-side description of the captured text: everything from immediately
after the marker up to but not including the next occurrence of the
character bracket, or the end of string. -/
def specCapture (suf : List Char) : List Char := suf.takeWhile (fun c => !(c == '['))

/-- Spec-side tag match: first occurrence by position, direct capture. -/
def specMatchTag (pat s : List Char) : Option (List Char) :=
  (findTagSuffix pat s).map specCapture

/-- Spec-side classifier: priority order Grammar, Pronunciation, Natural
Phrasing; for the first marker found (first occurrence by position, matched
case-insensitively), the text is everything from immediately after the
marker up to but not including the next bracket character or the end of
string, trimmed. -/
def specClassify (s : List Char) : Option CategorizedFeedback :=
  match specMatchTag grammarTag s with
  | some cap => some { category := Category.Grammar, text := (trimL cap).asString }
  | none =>
    match specMatchTag pronunciationTag s with
    | some cap => some { category := Category.Pronunciation, text := (trimL cap).asString }
    | none =>
      match specMatchTag naturalTag s with
      | some cap => some { category := Category.NaturalPhrasing, text := (trimL cap).asString }
      | none => none

theorem captureAfter_no_lineterm :
    ∀ l : List Char, (∀ c ∈ l, isLineTerm c = false) →
      captureAfter l = some (l.takeWhile (fun c => !(c == '['))) := by
  intro l
  induction l with
  | nil => intro _; rfl
  | cons c rest ih =>
    intro h
    have hlt : isLineTerm c = false := h c (List.mem_cons_self ..)
    by_cases hbr : (c == '[') = true
    · simp [captureAfter, List.takeWhile_cons, hbr]
    · have hbr2 : (c == '[') = false := by
        cases hb : (c == '[') with
        | true => exact absurd hb hbr
        | false => rfl
      simp [captureAfter, List.takeWhile_cons, hbr2, hlt,
        ih fun c2 hc2 => h c2 (List.mem_cons_of_mem _ hc2)]

theorem matchTag_eq_spec (pat : List Char) :
    ∀ s : List Char, (∀ c ∈ s, isLineTerm c = false) →
      matchTag pat s = specMatchTag pat s := by
  intro s
  induction s with
  | nil => intro _; rfl
  | cons c rest ih =>
    intro h
    rw [matchTag_cons]
    cases hcond : leadsWith pat (lowerL (c :: rest)) with
    | false =>
      simp only [hcond, Bool.false_eq_true, if_false]
      rw [ih fun c2 hc2 => h c2 (List.mem_cons_of_mem _ hc2)]
      simp only [specMatchTag, findTagSuffix, hcond, Bool.false_eq_true, if_false]
    | true =>
      have hsub : ∀ c2 ∈ List.drop pat.length (c :: rest), isLineTerm c2 = false :=
        fun c2 hc2 => h c2 (List.drop_subset _ _ hc2)
      rw [captureAfter_no_lineterm _ hsub]
      simp only [hcond, if_true]
      simp only [specMatchTag, findTagSuffix, hcond, if_true, Option.map_some]
      rfl

/-- C1 amended: for every accumulated model-transcript string free of line
terminators, the classifier picks the category by the fixed priority
Grammar, Pronunciation, Natural Phrasing — for the chosen marker, its first
occurrence by position, matched case-insensitively — and the emitted text
is everything from immediately after the marker up to but not including the
next occurrence of the bracket character (whether or not it begins a
recognized marker) or the end of string, with surrounding whitespace
trimmed. -/
theorem classify_amended (s : List Char) (h : ∀ c ∈ s, isLineTerm c = false) :
    classifyFeedback s = specClassify s := by
  unfold classifyFeedback specClassify
  rw [matchTag_eq_spec grammarTag s h, matchTag_eq_spec pronunciationTag s h,
      matchTag_eq_spec naturalTag s h]

/-- Witness for C1 amended at the spec's own example transcript, which also
evaluates to category Grammar with text "Past tense needed." as the claim
states. -/
theorem classify_amended_witness :
    (∀ c ∈ "[Pronunciation] Round your lips. [Grammar] Past tense needed.".toList,
       isLineTerm c = false) ∧
    classifyFeedback "[Pronunciation] Round your lips. [Grammar] Past tense needed.".toList =
      specClassify "[Pronunciation] Round your lips. [Grammar] Past tense needed.".toList ∧
    classifyStr "[Pronunciation] Round your lips. [Grammar] Past tense needed." =
      some { category := Category.Grammar, text := "Past tense needed." } :=
  ⟨by decide, classify_amended _ (by decide), by decide⟩
